import Mathlib

/-
  Verification of the envfile library (afonichev/envfile, envfile.go).

  The Go source is shallowly embedded over `List Char`.  Go strings are byte
  slices, but every slicing offset the source computes lands on a rune
  boundary (offsets are sums of part lengths plus counts of one-byte brace
  characters), so a character-level model extracts exactly the same
  substrings on every input; for the ASCII inputs of the claims the two
  views coincide literally.  Braces in string and character literals are
  written with hexadecimal escapes.
-/

namespace Envfile

/-- Character sequence standing for a Go string. -/
abbrev Chars := List Char

/-- Whitespace set of unicode.IsSpace, used by strings.TrimSpace. -/
def goIsSpace (c : Char) : Bool :=
  let n := c.toNat
  (9 ≤ n && n ≤ 13) || n == 32 || n == 133 || n == 160 || n == 0x1680 ||
  (0x2000 ≤ n && n ≤ 0x200A) || n == 0x2028 || n == 0x2029 ||
  n == 0x202F || n == 0x205F || n == 0x3000

/-- strings.TrimSpace: drop unicode whitespace from both ends. -/
def goTrim (v : Chars) : Chars :=
  ((v.dropWhile goIsSpace).reverse.dropWhile goIsSpace).reverse

/-- Character class of the key validation regexp (one char of [A-Za-z0-9_]). -/
def isWordChar (c : Char) : Bool :=
  let n := c.toNat
  (48 ≤ n && n ≤ 57) || (65 ≤ n && n ≤ 90) || (97 ≤ n && n ≤ 122) || n == 95

/-- ASCII lowering of one character (strings.ToLower on the ASCII range,
the only range the claims exercise). -/
def lowerChar (c : Char) : Char :=
  if 65 ≤ c.toNat ∧ c.toNat ≤ 90 then Char.ofNat (c.toNat + 32) else c

/-- Go value slice value[s:e] at character level. -/
def slice (s e : Nat) (v : Chars) : Chars :=
  (v.drop s).take (e - s)

/-- Payload structure (envfile.go, type Payload). -/
structure Payload where
  Line : Nat
  Export : Bool
  Overload : Bool
  Key : Chars
  Value : Chars
deriving DecidableEq, Repr

/-- Errors surfaced by the brace tokenizer inside Parse (all formatted with
the offending line number in the source). -/
inductive BraceErr where
  | excessOpeningAtEnd (line : Nat)
  | missingClosing (line : Nat)
  | excessClosing (line : Nat)
  | excessOpening (line : Nat)
  | excessClosingAtStart (line : Nat)
  | missingOpening (line : Nat)
  | emptyVarName (line : Nat)
  | recursiveKey (line : Nat) (key : Chars)
deriving DecidableEq, Repr

/-- Errors returned by Parse. -/
inductive Err where
  | cantSplit (line : Nat)
  | emptyKey (line : Nat)
  | invalidKey (line : Nat) (key : Chars)
  | duplicateKey (line : Nat) (key : Chars)
  | braceErr (e : BraceErr)
  | missingVar (line : Nat) (name : Chars)
deriving DecidableEq, Repr

/-- Split a line at the first equal sign (strings.SplitN(current, sign, 2)):
none when no equal sign occurs. -/
def splitFirstEq : Chars → Option (Chars × Chars)
  | [] => none
  | c :: rest =>
    if c = '=' then some ([], rest)
    else (splitFirstEq rest).map (fun p => (c :: p.1, p.2))

/-- strings.HasPrefix(strings.ToLower(key), pat) for an ASCII pattern. -/
def lowerStarts (s : Chars) (pat : Chars) : Bool :=
  pat.isPrefixOf (s.map lowerChar)

/-- Line-parsing loop of Parse (lines 106-180 of envfile.go): skip blanks
and comments, split on the first equal sign, strip the export and overload
directive prefixes, validate and deduplicate the key, trim the value. -/
def parseLinesGo (lineNo : Nat) (acc : List Payload) : List Chars → Except Err (List Payload)
  | [] => .ok acc
  | l :: rest =>
    let line := lineNo + 1
    let current := goTrim l
    if current = [] ∨ current.head? = some '#' then
      parseLinesGo line acc rest
    else
      match splitFirstEq current with
      | none => .error (.cantSplit line)
      | some (rawKey, rawValue) =>
        let key0 := goTrim rawKey
        let exp := lowerStarts key0 ('e' :: 'x' :: 'p' :: 'o' :: 'r' :: 't' :: [])
        let key1 := if exp then goTrim (key0.drop 6) else key0
        let ovl := lowerStarts key1 ('o' :: 'v' :: 'e' :: 'r' :: 'l' :: 'o' :: 'a' :: 'd' :: [])
        let key2 := if ovl then goTrim (key1.drop 8) else key1
        if key2 = [] then .error (.emptyKey line)
        else if !key2.all isWordChar then .error (.invalidKey line key2)
        else if acc.any (fun p => p.Key == key2) then .error (.duplicateKey line key2)
        else
          parseLinesGo line
            (acc ++ [{ Line := line, Export := exp, Overload := ovl,
                       Key := key2, Value := goTrim rawValue }]) rest

/-- Parse a whole file given as its list of raw lines. -/
def parseLines (lines : List Chars) : Except Err (List Payload) :=
  parseLinesGo 0 [] lines

/-- Character walk of the brace tokenizer (lines 191-243 of envfile.go):
split a value into parts, opening a boundary before a fresh opening brace
and closing one after a closing-brace run. -/
def partsGo (previous : Char) (chars : List Char) : List Char → List Chars
  | [] => if chars.isEmpty then [] else [chars]
  | c :: rest =>
    if previous ≠ '\x7b' ∧ c = '\x7b' ∧ !chars.isEmpty then
      chars :: partsGo c [c] rest
    else if previous = '\x7d' ∧ c ≠ '\x7d' ∧ !chars.isEmpty then
      chars :: partsGo c [c] rest
    else
      partsGo c (chars ++ [c]) rest

/-- Parts of a value; the previous character starts as the zero rune. -/
def partsOf (v : Chars) : List Chars :=
  partsGo (Char.ofNat 0) [] v

/-- Classification of the parts of one value (lines 249-343 of envfile.go):
parity of the brace counts flags unbalanced braces, an odd pair marks a
variable reference whose name is checked against the owning key. -/
def scanPartsGo (key value : Chars) (line : Nat) (total : Nat) :
    Nat → Nat → List Chars → Except BraceErr (List (Nat × Nat))
  | _, _, [] => .ok []
  | offset, i, part :: rest =>
    let opening := part.count '\x7b'
    let closing := part.count '\x7d'
    let evenO := opening % 2 == 0
    let evenC := closing % 2 == 0
    if !evenO && evenC then
      if opening > closing then
        if i = total - 1 ∧ part = ['\x7b'] then .error (.excessOpeningAtEnd line)
        else .error (.missingClosing line)
      else if opening < closing then .error (.excessClosing line)
      else scanPartsGo key value line total (offset + part.length) (i + 1) rest
    else if evenO && !evenC then
      if opening > closing then .error (.excessOpening line)
      else if opening < closing then
        if i = 0 ∧ part = ['\x7d'] then .error (.excessClosingAtStart line)
        else .error (.missingOpening line)
      else scanPartsGo key value line total (offset + part.length) (i + 1) rest
    else if !evenO && !evenC then
      if goTrim (slice (offset + opening) (offset + (part.length - closing)) value) = [] then
        .error (.emptyVarName line)
      else if goTrim (slice (offset + opening) (offset + (part.length - closing)) value) = key then
        .error (.recursiveKey line key)
      else
        match scanPartsGo key value line total (offset + part.length) (i + 1) rest with
        | .error e => .error e
        | .ok tail => .ok ((offset + opening, offset + (part.length - closing)) :: tail)
    else scanPartsGo key value line total (offset + part.length) (i + 1) rest

/-- Scan one payload value: positions of its variable references, or the
first brace error. -/
def scanValue (key value : Chars) (line : Nat) : Except BraceErr (List (Nat × Nat)) :=
  scanPartsGo key value line (partsOf value).length 0 0 (partsOf value)

/-- Ambient environment capability (os.LookupEnv). -/
abbrev Env := Chars → Option Chars

/-- Environment with no variables set. -/
def emptyEnv : Env := fun _ => none

/-- Temporary storage of one resolution iteration: referring key with the
positions of the references inside its value. -/
abbrev Temp := List (Chars × List (Nat × Nat))

/-- One processing order of the temporary storage (Go map iteration order
is unspecified, so it is a parameter of the model). -/
abbrev KeyOrder := List Chars

/-- Add the references of one payload to the temporary storage, merging
positions under an existing key as the Go map append does. -/
def tempAdd : Temp → Chars → List (Nat × Nat) → Temp
  | [], k, ps => [(k, ps)]
  | (k0, ps0) :: t, k, ps =>
    if k0 = k then (k0, ps0 ++ ps) :: t else (k0, ps0) :: tempAdd t k ps

/-- Positions stored under a key of the temporary storage. -/
def tempGet (temp : Temp) (k : Chars) : List (Nat × Nat) :=
  ((temp.find? (fun e => e.1 == k)).map Prod.snd).getD []

/-- Tokenize every payload of the set, accumulating the temporary storage
(first half of each iteration of the resolution loop). -/
def collectGo (temp : Temp) : List Payload → Except BraceErr Temp
  | [] => .ok temp
  | p :: rest =>
    match scanValue p.Key p.Value p.Line with
    | .error e => .error e
    | .ok ps => collectGo (if ps.isEmpty then temp else tempAdd temp p.Key ps) rest

/-- References of the whole payload set, keyed by the referring key. -/
def collectRefs (payloads : List Payload) : Except BraceErr Temp :=
  collectGo [] payloads

/-- First payload of the list carrying the given key, if any (the variable
lookup loop of lines 386-397 of envfile.go). -/
def lookupValue (payloads : List Payload) (name : Chars) : Option Chars :=
  (payloads.find? (fun q => q.Key == name)).map Payload.Value

/-- Splice the references of one payload, rightmost first (lines 362-425 of
envfile.go): the positions argument is already reversed.  Each reference is
re-read from the current value, resolved against the payload array first
and the ambient environment second, and replaced together with its braces. -/
def spliceAll (env : Env) (arr : List Payload) (line : Nat) (value : Chars) :
    List (Nat × Nat) → Except Err Chars
  | [] => .ok value
  | (s, e) :: rest =>
    match lookupValue arr (goTrim (slice s e value)) with
    | some v => spliceAll env arr line (value.take (s - 1) ++ v ++ value.drop (e + 1)) rest
    | none =>
      match env (goTrim (slice s e value)) with
      | some v => spliceAll env arr line (value.take (s - 1) ++ v ++ value.drop (e + 1)) rest
      | none => .error (.missingVar line (goTrim (slice s e value)))

/-- Process one key of the temporary storage over the payload list: every
payload carrying the key has its references spliced, the lookups seeing
the array with all updates made so far. -/
def substKeyGo (env : Env) (k : Chars) (ps : List (Nat × Nat)) (done : List Payload) :
    List Payload → Except Err (List Payload)
  | [] => .ok done
  | p :: rest =>
    if p.Key = k then
      match spliceAll env (done ++ p :: rest) p.Line p.Value ps.reverse with
      | .error e => .error e
      | .ok v => substKeyGo env k ps (done ++ [{ p with Value := v }]) rest
    else substKeyGo env k ps (done ++ [p]) rest

/-- Second half of one resolution iteration: process the keys of the
temporary storage in the given order. -/
def substPhase (env : Env) (temp : Temp) : KeyOrder → List Payload → Except Err (List Payload)
  | [], payloads => .ok payloads
  | k :: ks, payloads =>
    match substKeyGo env k (tempGet temp k) [] payloads with
    | .error e => .error e
    | .ok payloads1 => substPhase env temp ks payloads1

/-- Fixed-point resolution loop of Parse (lines 183-438 of envfile.go).
Each iteration that substitutes consumes one processing order; none means
the order supply ran out with references still unresolved, so the Go loop
is still running at that point. -/
def resolveLoop (env : Env) : List KeyOrder → List Payload → Option (Except Err (List Payload))
  | [], payloads =>
    match collectRefs payloads with
    | .error e => some (.error (.braceErr e))
    | .ok temp => if temp.isEmpty then some (.ok payloads) else none
  | o :: rest, payloads =>
    match collectRefs payloads with
    | .error e => some (.error (.braceErr e))
    | .ok temp =>
      if temp.isEmpty then some (.ok payloads)
      else
        match substPhase env temp o payloads with
        | .error e => some (.error e)
        | .ok payloads1 => resolveLoop env rest payloads1

/-- An order supply is valid for a run when each consumed order is a
permutation of the keys of the temporary storage of its iteration. -/
def validOrders (env : Env) : List KeyOrder → List Payload → Bool
  | [], _ => true
  | o :: rest, payloads =>
    match collectRefs payloads with
    | .error _ => true
    | .ok temp =>
      if temp.isEmpty then true
      else
        decide (o.Perm (temp.map Prod.fst)) &&
          match substPhase env temp o payloads with
          | .error _ => true
          | .ok payloads1 => validOrders env rest payloads1

/-- Replace every adjacent doubled occurrence of a character by a single
one, left to right (strings.ReplaceAll with a two-character pattern). -/
def replaceDouble (c : Char) : Chars → Chars
  | x :: y :: rest =>
    if x = c ∧ y = c then c :: replaceDouble c rest
    else x :: replaceDouble c (y :: rest)
  | l => l

/-- Backslash unescaping (lines 450-470 of envfile.go): the regexp matches
a backslash followed by any character other than a newline, rewriting the
three recognized escapes and keeping every other match verbatim. -/
def unescapeChars : Chars → Chars
  | [] => []
  | x :: rest =>
    if x = '\\' then
      match rest with
      | [] => ['\\']
      | c :: rest2 =>
        if c = '\n' then '\\' :: '\n' :: unescapeChars rest2
        else if c = 'n' then '\n' :: unescapeChars rest2
        else if c = 't' then '\t' :: unescapeChars rest2
        else if c = '\\' then '\\' :: unescapeChars rest2
        else '\\' :: c :: unescapeChars rest2
    else x :: unescapeChars rest

/-- Escape Processor applied to one value (lines 440-474 of envfile.go):
collapse doubled braces, then process backslash escapes. -/
def escapeValue (v : Chars) : Chars :=
  unescapeChars (replaceDouble '\x7d' (replaceDouble '\x7b' v))

/-- Escape Processor applied to the whole resolved set. -/
def escapePhase (payloads : List Payload) : List Payload :=
  payloads.map (fun p => { p with Value := escapeValue p.Value })

/-- Whole Parse pipeline on the lines of one file: line parsing, fixed
point resolution, escape processing. -/
def parseModel (env : Env) (orders : List KeyOrder) (lines : List Chars) :
    Option (Except Err (List Payload)) :=
  match parseLines lines with
  | .error e => some (.error e)
  | .ok payloads =>
    match resolveLoop env orders payloads with
    | none => none
    | some (.error e) => some (.error e)
    | some (.ok resolved) => some (.ok (escapePhase resolved))

/-- Point update of the ambient environment (os.Setenv effect). -/
def setEnvF (env : Env) (k v : Chars) : Env :=
  fun x => if x = k then some v else env x

/-- Errors surfaced by Load. -/
inductive LoadError where
  | parseFailed (e : Err)
  | setenvFailed (key : Chars)
deriving DecidableEq, Repr

/-- Per-payload action of Load (lines 59-78 of envfile.go): only exported
or overloaded entries touch the environment; an existing value blocks a
plain export; a write equal to the current value (or to the empty string
when the key is unset) is skipped.  The canWrite capability models a
possible os.Setenv failure. -/
def applyPayload (canWrite : Chars → Chars → Bool) (env : Env) (p : Payload) :
    Except Chars Env :=
  if p.Export || p.Overload then
    let lookup := env p.Key
    if lookup.isNone || p.Overload then
      let value := lookup.getD []
      if p.Value = value then .ok env
      else if canWrite p.Key p.Value then .ok (setEnvF env p.Key p.Value)
      else .error p.Key
    else .ok env
  else .ok env

/-- Payload iteration of Load for one file: on a write failure the
environment reached so far is returned with the failing key. -/
def applyPayloads (canWrite : Chars → Chars → Bool) (env : Env) :
    List Payload → Env × Option Chars
  | [] => (env, none)
  | p :: rest =>
    match applyPayload canWrite env p with
    | .error k => (env, some k)
    | .ok env1 => applyPayloads canWrite env1 rest

/-- Load over a list of files (lines 50-79 of envfile.go), each file given
as its raw lines plus the order supply of its resolution run: parse with
the current ambient environment, then inject the payloads; stop at the
first error, returning the environment reached.  none models a resolution
run that is still looping. -/
def loadModel (canWrite : Chars → Chars → Bool) (env : Env) :
    List (List Chars × List KeyOrder) → Option (Env × Option LoadError)
  | [] => some (env, none)
  | (lines, orders) :: rest =>
    match parseModel env orders lines with
    | none => none
    | some (.error e) => some (env, some (.parseFailed e))
    | some (.ok payloads) =>
      match applyPayloads canWrite env payloads with
      | (env1, some k) => some (env1, some (.setenvFailed k))
      | (env1, none) => loadModel canWrite env1 rest

/-! Concrete inputs used by the individual claims. -/

/-- Write capability that always succeeds. -/
def writeAlways : Chars → Chars → Bool := fun _ _ => true

/-- File of the chained-interpolation scenario. -/
def chainLines : List Chars :=
  ["A = foo".toList, "B = \x7b A \x7dbar".toList, "C = \x7b B \x7dbaz".toList]

/-- Entry set the Line Parser produces from chainLines. -/
def chainStart : List Payload :=
  [{ Line := 1, Export := false, Overload := false, Key := "A".toList, Value := "foo".toList },
   { Line := 2, Export := false, Overload := false, Key := "B".toList,
     Value := "\x7b A \x7dbar".toList },
   { Line := 3, Export := false, Overload := false, Key := "C".toList,
     Value := "\x7b B \x7dbaz".toList }]

/-- Fully resolved entry set of the chained-interpolation scenario. -/
def chainFinal : List Payload :=
  [{ Line := 1, Export := false, Overload := false, Key := "A".toList, Value := "foo".toList },
   { Line := 2, Export := false, Overload := false, Key := "B".toList, Value := "foobar".toList },
   { Line := 3, Export := false, Overload := false, Key := "C".toList,
     Value := "foobarbaz".toList }]

/-- Intermediate entry set of the chained-interpolation scenario when the
first iteration processes C before B: C spliced the still-unresolved value
of B and resolves only in the second iteration. -/
def chainMid : List Payload :=
  [{ Line := 1, Export := false, Overload := false, Key := "A".toList, Value := "foo".toList },
   { Line := 2, Export := false, Overload := false, Key := "B".toList, Value := "foobar".toList },
   { Line := 3, Export := false, Overload := false, Key := "C".toList,
     Value := "\x7b A \x7dbarbaz".toList }]

/-- Entry A of the mutual-cycle scenario: A references B. -/
def cycA : Payload :=
  { Line := 1, Export := false, Overload := false, Key := "A".toList, Value := "\x7b B \x7d".toList }

/-- Entry B of the mutual-cycle scenario: B references A. -/
def cycB : Payload :=
  { Line := 2, Export := false, Overload := false, Key := "B".toList, Value := "\x7b A \x7d".toList }

/-- Entry whose value is a single unterminated opening brace. -/
def braceBroken : Payload :=
  { Line := 1, Export := false, Overload := false, Key := "X".toList, Value := "\x7b".toList }

/-- Entry with a well-formed reference to its own key. -/
def selfRefEntry : Payload :=
  { Line := 2, Export := false, Overload := false, Key := "E".toList, Value := "\x7b E \x7d".toList }

/-- Entry with a well-formed reference to a name that exists nowhere. -/
def missingRefEntry : Payload :=
  { Line := 2, Export := false, Overload := false, Key := "E".toList, Value := "\x7b M \x7d".toList }

/-- Value consisting of four opening braces. -/
def fourBraces : Chars := "\x7b\x7b\x7b\x7b".toList

/-- Parts of a value paired with their running character offsets. -/
def withOffsets (offset : Nat) : List Chars → List (Nat × Chars)
  | [] => []
  | part :: rest => (offset, part) :: withOffsets (offset + part.length) rest

/-- Name the tokenizer extracts from a reference part at a given offset:
the slice between the leading brace run and the trailing brace run,
trimmed. -/
def refName (value : Chars) (offset : Nat) (part : Chars) : Chars :=
  goTrim (slice (offset + part.count '\x7b') (offset + (part.length - part.count '\x7d')) value)

/-- The value of the payload contains a well-formed variable reference
(odd brace counts on both sides) whose name is the payload key itself. -/
def hasSelfRef (p : Payload) : Prop :=
  ∃ op ∈ withOffsets 0 (partsOf p.Value),
    op.2.count '\x7b' % 2 = 1 ∧ op.2.count '\x7d' % 2 = 1 ∧ refName p.Value op.1 op.2 = p.Key

/-- Separation invariant of the reference positions the scan produces:
positions are ascending, the name span of each lies within the value
(below hi), and the next reference starts at least two characters after
the previous name span ends (the closing brace lies between them). -/
def SepB (hi : Nat) : Nat → List (Nat × Nat) → Prop
  | _, [] => True
  | lo, (s, e) :: r => lo ≤ s ∧ s ≤ e ∧ e < hi ∧ SepB hi (e + 2) r

/-- Classifier for the resolution-error kind of Parse errors. -/
def Err.isResolution : Err → Bool
  | .missingVar _ _ => true
  | _ => false

/-- Classifier for the recursive-use brace error. -/
def BraceErr.isRecursive : BraceErr → Bool
  | .recursiveKey _ _ => true
  | _ => false

/-- A value is in escape normal form when it contains no doubled brace and
no backslash escape that the Escape Processor would rewrite. -/
def escapeNormal : Chars → Bool
  | x :: y :: rest =>
    if x = '\x7b' ∧ y = '\x7b' then false
    else if x = '\x7d' ∧ y = '\x7d' then false
    else if x = '\\' ∧ (y = 'n' ∨ y = 't' ∨ y = '\\') then false
    else escapeNormal (y :: rest)
  | _ => true

/-! Supporting lemmas. -/

/-- A permutation of a two-element list of distinct elements is one of the
two arrangements. -/
theorem perm_pair_cases {α : Type} [DecidableEq α] {a b : α} (hab : a ≠ b) {l : List α}
    (h : l.Perm [a, b]) : l = [a, b] ∨ l = [b, a] := by
  have hlen : l.length = 2 := by simpa using h.length_eq
  obtain ⟨x, y, rfl⟩ := List.length_eq_two.mp hlen
  have hx : x ∈ [a, b] := h.mem_iff.mp (by simp)
  have hy : y ∈ [a, b] := h.mem_iff.mp (by simp)
  have ha : a ∈ [x, y] := h.symm.mem_iff.mp (by simp)
  have hb : b ∈ [x, y] := h.symm.mem_iff.mp (by simp)
  simp only [List.mem_cons, List.mem_singleton, List.not_mem_nil, or_false] at hx hy ha hb
  rcases hx with rfl | rfl
  · rcases hb with rfl | rfl
    · exact absurd rfl hab
    · exact Or.inl rfl
  · rcases ha with rfl | rfl
    · exact absurd rfl hab
    · exact Or.inr rfl

/-- Loading the files of an appended list threads the environment of the
successful front through the back, and any failure keeps the environment
reached so far. -/
theorem applyPayloads_append (canWrite : Chars → Chars → Bool) :
    ∀ (ps1 ps2 : List Payload) (env : Env),
      applyPayloads canWrite env (ps1 ++ ps2) =
        (match applyPayloads canWrite env ps1 with
         | (env1, none) => applyPayloads canWrite env1 ps2
         | (env1, some k) => (env1, some k)) := by
  intro ps1
  induction ps1 with
  | nil => intro ps2 env; simp [applyPayloads]
  | cons p rest ih =>
    intro ps2 env
    simp only [List.cons_append, applyPayloads]
    cases applyPayload canWrite env p with
    | error k => rfl
    | ok env1 => simpa using ih ps2 env1

/-- File-level version of the threading lemma. -/
theorem loadModel_append (canWrite : Chars → Chars → Bool) :
    ∀ (fs1 fs2 : List (List Chars × List KeyOrder)) (env : Env),
      loadModel canWrite env (fs1 ++ fs2) =
        (match loadModel canWrite env fs1 with
         | some (env1, none) => loadModel canWrite env1 fs2
         | r => r) := by
  intro fs1
  induction fs1 with
  | nil => intro fs2 env; simp [loadModel]
  | cons f rest ih =>
    intro fs2 env
    obtain ⟨lines, orders⟩ := f
    simp only [List.cons_append, loadModel]
    cases parseModel env orders lines with
    | none => rfl
    | some r =>
      cases r with
      | error e => rfl
      | ok payloads =>
        simp only []
        cases applyPayloads canWrite env payloads with
        | mk env1 err =>
          cases err with
          | none => simpa using ih fs2 env1
          | some k => rfl

/-! Claim theorems. -/

/-- C4: an overload entry overwrites an existing, different ambient value,
while a plain export entry never overwrites an existing ambient value. -/
theorem c4_overload_overwrites_export_skips (canWrite : Chars → Chars → Bool)
    (env : Env) (p : Payload) (w : Chars) :
    (p.Overload = true → env p.Key = some w → p.Value ≠ w → canWrite p.Key p.Value = true →
      applyPayload canWrite env p = .ok (setEnvF env p.Key p.Value)) ∧
    (p.Export = true → p.Overload = false → env p.Key = some w →
      applyPayload canWrite env p = .ok env) := by
  constructor
  · intro hov henv hne hcw
    simp [applyPayload, hov, henv, hne, hcw]
  · intro hex hov henv
    simp [applyPayload, hex, hov, henv]

/-- Witness for C4 at the end-to-end scenario of the specification:
ambient PORT=8080; overload PORT = 3000 rewrites it, export PORT = 3000
leaves it alone. -/
theorem c4_overload_overwrites_export_skips_witness :
    applyPayload writeAlways
        (setEnvF emptyEnv "PORT".toList "8080".toList)
        { Line := 1, Export := false, Overload := true,
          Key := "PORT".toList, Value := "3000".toList } =
      .ok (setEnvF (setEnvF emptyEnv "PORT".toList "8080".toList)
            "PORT".toList "3000".toList) ∧
    applyPayload writeAlways
        (setEnvF emptyEnv "PORT".toList "8080".toList)
        { Line := 1, Export := true, Overload := false,
          Key := "PORT".toList, Value := "3000".toList } =
      .ok (setEnvF emptyEnv "PORT".toList "8080".toList) := by
  constructor
  · exact (c4_overload_overwrites_export_skips writeAlways
      (setEnvF emptyEnv "PORT".toList "8080".toList) _ ("8080".toList)).1
      rfl (by decide) (by decide) rfl
  · exact (c4_overload_overwrites_export_skips writeAlways
      (setEnvF emptyEnv "PORT".toList "8080".toList) _ ("8080".toList)).2
      rfl rfl (by decide)

/-- C9: an export-only entry whose key is unset and whose resolved value is
empty leaves the ambient environment untouched, because the lookup default
of the unset key equals the empty value and the write is skipped. -/
theorem c9_empty_export_skipped (canWrite : Chars → Chars → Bool) (env : Env) (p : Payload)
    (hex : p.Export = true) (hov : p.Overload = false)
    (habs : env p.Key = none) (hemp : p.Value = []) :
    applyPayload canWrite env p = .ok env := by
  simp [applyPayload, hex, hov, habs, hemp]

/-- Witness for C9: an empty exported value on an unset key. -/
theorem c9_empty_export_skipped_witness :
    applyPayload writeAlways emptyEnv
      { Line := 1, Export := true, Overload := false, Key := "K".toList, Value := [] } =
    .ok emptyEnv :=
  c9_empty_export_skipped writeAlways emptyEnv _ rfl rfl rfl rfl

/-- C10: Load never rolls back: loading an appended list of files (or of
payloads within a file) threads the environment of the successful front
into the back, and on any failure the returned environment is the one
reached so far, with every earlier write still in effect. -/
theorem c10_no_rollback (canWrite : Chars → Chars → Bool) :
    (∀ (ps1 ps2 : List Payload) (env : Env),
      applyPayloads canWrite env (ps1 ++ ps2) =
        (match applyPayloads canWrite env ps1 with
         | (env1, none) => applyPayloads canWrite env1 ps2
         | (env1, some k) => (env1, some k))) ∧
    (∀ (fs1 fs2 : List (List Chars × List KeyOrder)) (env : Env),
      loadModel canWrite env (fs1 ++ fs2) =
        (match loadModel canWrite env fs1 with
         | some (env1, none) => loadModel canWrite env1 fs2
         | r => r)) :=
  ⟨applyPayloads_append canWrite, loadModel_append canWrite⟩


/-- Normal form is preserved by dropping the head character. -/
theorem escapeNormal_tail {x : Char} {l : Chars} (h : escapeNormal (x :: l) = true) :
    escapeNormal l = true := by
  cases l with
  | nil => rfl
  | cons y rest =>
    rw [escapeNormal] at h
    split at h
    · exact absurd h (by simp)
    · split at h
      · exact absurd h (by simp)
      · split at h
        · exact absurd h (by simp)
        · exact h

/-- The pair of characters at the head of a normal value is not one the
Escape Processor rewrites. -/
theorem escapeNormal_head {x y : Char} {rest : Chars}
    (h : escapeNormal (x :: y :: rest) = true) :
    ¬(x = '\x7b' ∧ y = '\x7b') ∧ ¬(x = '\x7d' ∧ y = '\x7d') ∧
      ¬(x = '\\' ∧ (y = 'n' ∨ y = 't' ∨ y = '\\')) := by
  rw [escapeNormal] at h
  split at h
  · exact absurd h (by simp)
  · split at h
    · exact absurd h (by simp)
    · split at h
      · exact absurd h (by simp)
      · refine ⟨by assumption, by assumption, by assumption⟩

/-- Collapsing a doubled brace is the identity on normal values. -/
theorem replaceDouble_id {c : Char} (hc : c = '\x7b' ∨ c = '\x7d') :
    ∀ {l : Chars}, escapeNormal l = true → replaceDouble c l = l := by
  intro l
  induction l with
  | nil => intro _; rfl
  | cons x t ih =>
    intro h
    cases t with
    | nil => rfl
    | cons y rest =>
      have hd := escapeNormal_head h
      have hxy : ¬(x = c ∧ y = c) := by
        rcases hc with rfl | rfl
        · exact hd.1
        · exact hd.2.1
      rw [replaceDouble, if_neg hxy]
      exact congrArg (x :: ·) (ih (escapeNormal_tail h))

/-- Unescaping a character other than a backslash just keeps it. -/
theorem unescapeChars_cons_ne {y : Char} (hy : y ≠ '\\') (l : Chars) :
    unescapeChars (y :: l) = y :: unescapeChars l := by
  rw [unescapeChars.eq_def]
  simp only []
  rw [if_neg hy]

/-- Backslash unescaping is the identity on normal values. -/
theorem unescapeChars_id : ∀ {l : Chars}, escapeNormal l = true → unescapeChars l = l := by
  intro l
  induction l with
  | nil => intro _; rfl
  | cons x t ih =>
    intro h
    cases t with
    | nil =>
      by_cases hx : x = '\\'
      · subst hx; rfl
      · rw [unescapeChars, if_neg hx]; rfl
    | cons y rest =>
      have hd := escapeNormal_head h
      have htail := escapeNormal_tail h
      by_cases hx : x = '\\'
      · subst hx
        have hyn : ¬(y = 'n' ∨ y = 't' ∨ y = '\\') := fun hy => hd.2.2 ⟨rfl, hy⟩
        have hy1 : y ≠ 'n' := fun hy => hyn (Or.inl hy)
        have hy2 : y ≠ 't' := fun hy => hyn (Or.inr (Or.inl hy))
        have hy3 : y ≠ '\\' := fun hy => hyn (Or.inr (Or.inr hy))
        have hrest : unescapeChars rest = rest := by
          have := ih htail
          rw [unescapeChars_cons_ne hy3 rest] at this
          exact (List.cons.injEq _ _ _ _).mp this |>.2
        by_cases hy0 : y = '\n'
        · subst hy0
          rw [unescapeChars.eq_def]
          simp [hrest]
        · rw [unescapeChars.eq_def]
          simp [hy0, hy1, hy2, hy3, hrest]
      · rw [unescapeChars_cons_ne hx]
        exact congrArg (x :: ·) (ih htail)

/-- The Escape Processor is the identity on values in normal form. -/
theorem escapeValue_id {l : Chars} (h : escapeNormal l = true) : escapeValue l = l := by
  rw [escapeValue, replaceDouble_id (Or.inl rfl) h, replaceDouble_id (Or.inr rfl) h,
    unescapeChars_id h]

/-- C3 counterexample: on a value of four opening braces the Escape
Processor is not idempotent — the doubled-brace collapse leaves a fresh
doubled brace that a second run collapses again. -/
theorem c3_counterexample :
    escapeValue fourBraces = ['\x7b', '\x7b'] ∧
    escapeValue (escapeValue fourBraces) = ['\x7b'] ∧
    escapeValue (escapeValue fourBraces) ≠ escapeValue fourBraces := by
  refine ⟨by decide, by decide, by decide⟩

/-- C3 amended: the Escape Processor is idempotent at a value v exactly
when its output is still in escape normal form (no doubled brace and no
rewritable backslash pair survives); re-running it on such an output is a
no-op. -/
theorem c3_escape_idempotent_on_normal (v : Chars)
    (h : escapeNormal (escapeValue v) = true) :
    escapeValue (escapeValue v) = escapeValue v :=
  escapeValue_id h

/-- Witness for C3 at the escape-sequence example of the specification. -/
theorem c3_escape_idempotent_on_normal_witness :
    escapeValue (escapeValue "Title:\\n\\t1. value".toList) =
      escapeValue "Title:\\n\\t1. value".toList :=
  c3_escape_idempotent_on_normal _ (by decide)

/-- Lines that are blank after trimming or start a comment are skipped by
the Line Parser without touching the accumulator. -/
theorem parseLinesGo_skip :
    ∀ (lines : List Chars) (n : Nat) (acc : List Payload),
      (∀ l ∈ lines, goTrim l = [] ∨ (goTrim l).head? = some '#') →
      parseLinesGo n acc lines = .ok acc := by
  intro lines
  induction lines with
  | nil => intro n acc _; rfl
  | cons l rest ih =>
    intro n acc h
    have hl := h l (by simp)
    rw [parseLinesGo, if_pos hl]
    exact ih (n + 1) acc (fun x hx => h x (by simp [hx]))

/-- Resolution of an empty entry set stops at once with the empty set. -/
theorem resolveLoop_nil (env : Env) (orders : List KeyOrder) :
    resolveLoop env orders [] = some (.ok []) := by
  cases orders with
  | nil => rfl
  | cons o rest => rfl

/-- C7 counterexample: a file whose only line is non-comment, non-blank
and has no equal sign makes Parse fail with the split error instead of
returning an empty entry set. -/
theorem c7_counterexample :
    parseModel emptyEnv [] ["foo".toList] = some (.error (.cantSplit 1)) ∧
    some (.error (.cantSplit 1)) ≠
      (some (.ok ([] : List Payload)) : Option (Except Err (List Payload))) := by
  constructor
  · rfl
  · intro h
    exact absurd (Option.some.inj h) (by simp)

/-- C7 amended: for any file in which every line is blank after trimming
or is a comment, Parse returns the empty entry set and no error; a
non-comment line lacking an equal sign is instead a syntax error. -/
theorem c7_empty_parse (env : Env) (orders : List KeyOrder) (lines : List Chars)
    (h : ∀ l ∈ lines, goTrim l = [] ∨ (goTrim l).head? = some '#') :
    parseModel env orders lines = some (.ok []) := by
  rw [parseModel, parseLines, parseLinesGo_skip lines 0 [] h]
  simp only []
  rw [resolveLoop_nil]
  rfl

/-- Witness for C7 at a file of a comment line and two blank lines. -/
theorem c7_empty_parse_witness :
    parseModel emptyEnv [] ["# comment".toList, "   ".toList, [] ] = some (.ok []) :=
  c7_empty_parse emptyEnv [] _ (by decide)

/-- A key character is never whitespace. -/
theorem word_not_space {c : Char} (h : isWordChar c = true) : goIsSpace c = false := by
  simp only [isWordChar, Bool.or_eq_true, Bool.and_eq_true, decide_eq_true_eq,
    beq_iff_eq] at h
  simp only [goIsSpace, Bool.or_eq_false_iff, Bool.and_eq_false_iff,
    decide_eq_false_iff_not, not_le, beq_eq_false_iff_ne, ne_eq]
  omega

/-- A key character is never the equal sign. -/
theorem word_ne_eqsign {c : Char} (h : isWordChar c = true) : c ≠ '=' := by
  intro he
  rw [he] at h
  exact absurd h (by decide)

/-- dropWhile does nothing when no element satisfies the test. -/
theorem dropWhile_id_of {p : Char → Bool} {l : Chars} (h : ∀ c ∈ l, p c = false) :
    l.dropWhile p = l := by
  cases l with
  | nil => rfl
  | cons x t =>
    rw [List.dropWhile_cons, if_neg (by simp [h x (by simp)])]

/-- Trimming does nothing on a string without whitespace. -/
theorem goTrim_id {l : Chars} (h : ∀ c ∈ l, goIsSpace c = false) : goTrim l = l := by
  rw [goTrim, dropWhile_id_of h,
    dropWhile_id_of (fun c hc => h c (List.mem_reverse.mp hc)), List.reverse_reverse]

/-- Splitting at the first equal sign of an appended equal sign. -/
theorem splitFirstEq_append : ∀ (pre suf : Chars), (∀ c ∈ pre, c ≠ '=') →
    splitFirstEq (pre ++ '=' :: suf) = some (pre, suf) := by
  intro pre
  induction pre with
  | nil => intro suf _; simp [splitFirstEq]
  | cons x t ih =>
    intro suf h
    rw [List.cons_append, splitFirstEq, if_neg (h x (by simp)),
      ih suf (fun c hc => h c (by simp [hc]))]
    rfl

/-- The lowered form of a token beginning with the six letters EXPORT
passes the export directive test. -/
theorem lowerStarts_export (rest : Chars) :
    lowerStarts ('E' :: 'X' :: 'P' :: 'O' :: 'R' :: 'T' :: rest)
      ('e' :: 'x' :: 'p' :: 'o' :: 'r' :: 't' :: []) = true := by
  have h1 : lowerChar 'E' = 'e' := by decide
  have h2 : lowerChar 'X' = 'x' := by decide
  have h3 : lowerChar 'P' = 'p' := by decide
  have h4 : lowerChar 'O' = 'o' := by decide
  have h5 : lowerChar 'R' = 'r' := by decide
  have h6 : lowerChar 'T' = 't' := by decide
  simp [lowerStarts, h1, h2, h3, h4, h5, h6, List.isPrefixOf]

/-- C8 counterexample: the line EXPORTED_VAR=1 is parsed with the export
flag set and the key ED_VAR — the directive is recognized as a bare
prefix, not a whitespace-separated token. -/
theorem c8_counterexample :
    parseLines ["EXPORTED_VAR=1".toList] =
      .ok [{ Line := 1, Export := true, Overload := false,
             Key := "ED_VAR".toList, Value := "1".toList }] ∧
    "ED_VAR".toList ≠ "EXPORTED_VAR".toList := by
  exact ⟨rfl, by decide⟩

/-- C8 amended: the directives are case-insensitive bare prefixes of the
key token, with no whitespace separation required: every key token of the
shape EXPORT followed directly by word characters (not spelling a further
overload directive) parses with the export flag set and the remainder of
the token as key. -/
theorem c8_directive_is_bare_head (rest value : Chars)
    (hne : rest ≠ [])
    (hrw : rest.all isWordChar = true)
    (hvw : value.all isWordChar = true)
    (hov : lowerStarts rest ('o' :: 'v' :: 'e' :: 'r' :: 'l' :: 'o' :: 'a' :: 'd' :: []) = false) :
    parseLines [('E' :: 'X' :: 'P' :: 'O' :: 'R' :: 'T' :: rest) ++ '=' :: value] =
      .ok [{ Line := 1, Export := true, Overload := false, Key := rest, Value := value }] := by
  have hrn : ∀ c ∈ rest, goIsSpace c = false :=
    fun c hc => word_not_space (List.all_eq_true.mp hrw c hc)
  have hvn : ∀ c ∈ value, goIsSpace c = false :=
    fun c hc => word_not_space (List.all_eq_true.mp hvw c hc)
  have hLn : ∀ c ∈ ('E' :: 'X' :: 'P' :: 'O' :: 'R' :: 'T' :: rest) ++ '=' :: value,
      goIsSpace c = false := by
    intro c hc
    simp only [List.mem_append, List.mem_cons] at hc
    rcases hc with (rfl | rfl | rfl | rfl | rfl | rfl | hc) | (rfl | hc)
    · decide
    · decide
    · decide
    · decide
    · decide
    · decide
    · exact hrn c hc
    · decide
    · exact hvn c hc
  have hcur : goTrim (('E' :: 'X' :: 'P' :: 'O' :: 'R' :: 'T' :: rest) ++ '=' :: value) =
      ('E' :: 'X' :: 'P' :: 'O' :: 'R' :: 'T' :: rest) ++ '=' :: value := goTrim_id hLn
  have hsplit : splitFirstEq (('E' :: 'X' :: 'P' :: 'O' :: 'R' :: 'T' :: rest) ++ '=' :: value) =
      some ('E' :: 'X' :: 'P' :: 'O' :: 'R' :: 'T' :: rest, value) := by
    apply splitFirstEq_append
    intro c hc
    simp only [List.mem_cons] at hc
    rcases hc with rfl | rfl | rfl | rfl | rfl | rfl | hc
    · decide
    · decide
    · decide
    · decide
    · decide
    · decide
    · exact word_ne_eqsign (List.all_eq_true.mp hrw c hc)
  have hkey0 : goTrim ('E' :: 'X' :: 'P' :: 'O' :: 'R' :: 'T' :: rest) =
      'E' :: 'X' :: 'P' :: 'O' :: 'R' :: 'T' :: rest := by
    apply goTrim_id
    intro c hc
    simp only [List.mem_cons] at hc
    rcases hc with rfl | rfl | rfl | rfl | rfl | rfl | hc
    · decide
    · decide
    · decide
    · decide
    · decide
    · decide
    · exact hrn c hc
  have hrt : goTrim rest = rest := goTrim_id hrn
  have hvt : goTrim value = value := goTrim_id hvn
  have hcur' : goTrim ('E' :: 'X' :: 'P' :: 'O' :: 'R' :: 'T' :: (rest ++ '=' :: value)) =
      'E' :: 'X' :: 'P' :: 'O' :: 'R' :: 'T' :: (rest ++ '=' :: value) := by
    simpa using hcur
  have hsplit' : splitFirstEq ('E' :: 'X' :: 'P' :: 'O' :: 'R' :: 'T' :: (rest ++ '=' :: value)) =
      some ('E' :: 'X' :: 'P' :: 'O' :: 'R' :: 'T' :: rest, value) := by
    simpa using hsplit
  have hcond : ¬(('E' :: 'X' :: 'P' :: 'O' :: 'R' :: 'T' :: (rest ++ '=' :: value) : Chars) = [] ∨
      ('E' :: 'X' :: 'P' :: 'O' :: 'R' :: 'T' :: (rest ++ '=' :: value) : Chars).head? =
        some '#') := by
    rintro (h | h)
    · exact List.cons_ne_nil _ _ h
    · rw [List.head?_cons] at h
      exact absurd (Option.some.inj h) (by decide)
  rw [parseLines, parseLinesGo]
  simp only [List.cons_append]
  rw [hcur', if_neg hcond, hsplit']
  simp only [hkey0, lowerStarts_export, hov, List.drop_succ_cons, List.drop_zero,
    hrt, hvt, List.any_nil, eq_self_iff_true, if_true, Bool.false_eq_true, if_false,
    if_neg hne, hrw, Bool.not_true]
  rfl

/-- Witness for C8 at the EXPORTED_VAR=1 line itself. -/
theorem c8_directive_is_bare_head_witness :
    parseLines [('E' :: 'X' :: 'P' :: 'O' :: 'R' :: 'T' :: "ED_VAR".toList) ++ '=' :: "1".toList] =
      .ok [{ Line := 1, Export := true, Overload := false,
             Key := "ED_VAR".toList, Value := "1".toList }] :=
  c8_directive_is_bare_head "ED_VAR".toList "1".toList (by decide) (by decide) (by decide)
    (by decide)

/-- Resolution fails at once, for every order supply, when the scan of the
current entry set reports a brace error. -/
theorem resolveLoop_collect_error (payloads : List Payload) (e : BraceErr)
    (h : collectRefs payloads = .error e) (env : Env) (orders : List KeyOrder) :
    resolveLoop env orders payloads = some (.error (.braceErr e)) := by
  cases orders with
  | nil => rw [resolveLoop, h]
  | cons o rest => rw [resolveLoop, h]

/-- Resolution succeeds at once, for every order supply, when the scan of
the current entry set finds no reference at all. -/
theorem resolveLoop_collect_empty (payloads : List Payload)
    (h : collectRefs payloads = .ok []) (env : Env) (orders : List KeyOrder) :
    resolveLoop env orders payloads = some (.ok payloads) := by
  cases orders with
  | nil => rw [resolveLoop, h]; rfl
  | cons o rest => rw [resolveLoop, h]; rfl

/-- C2 counterexample: on the two-entry mutual cycle the resolution loop
returns a recursive-use brace error at its second iteration under either
processing order of the first iteration — it does not loop forever. -/
theorem c2_counterexample :
    resolveLoop emptyEnv [["A".toList, "B".toList]] [cycA, cycB] =
      some (.error (.braceErr (.recursiveKey 1 "A".toList))) ∧
    resolveLoop emptyEnv [["B".toList, "A".toList]] [cycA, cycB] =
      some (.error (.braceErr (.recursiveKey 2 "B".toList))) :=
  ⟨rfl, rfl⟩

/-- C2 amended: the mutual cycle A references B, B references A always
terminates: the first iteration rewrites both values into a direct
self-reference and the second iteration scan fails with the recursive-use
brace error, whichever order the references were processed in and whatever
order supply remains. -/
theorem c2_mutual_cycle_terminates (o : KeyOrder) (rest : List KeyOrder)
    (h : o.Perm ["A".toList, "B".toList]) :
    ∃ l k, resolveLoop emptyEnv (o :: rest) [cycA, cycB] =
      some (.error (.braceErr (.recursiveKey l k))) := by
  have hAB : ("A".toList : Chars) ≠ "B".toList := by decide
  rcases perm_pair_cases hAB h with rfl | rfl
  · refine ⟨1, "A".toList, ?_⟩
    have hc : collectRefs [cycA, cycB] =
        .ok [("A".toList, [(1, 4)]), ("B".toList, [(1, 4)])] := rfl
    rw [resolveLoop, hc]
    have hsub : substPhase emptyEnv [("A".toList, [(1, 4)]), ("B".toList, [(1, 4)])]
        ["A".toList, "B".toList] [cycA, cycB] =
        .ok [{ cycA with Value := "\x7b A \x7d".toList },
             { cycB with Value := "\x7b A \x7d".toList }] := rfl
    simp only [List.isEmpty_cons, Bool.false_eq_true, if_false, hsub]
    exact resolveLoop_collect_error
      [{ cycA with Value := "\x7b A \x7d".toList }, { cycB with Value := "\x7b A \x7d".toList }]
      (.recursiveKey 1 "A".toList) rfl emptyEnv rest
  · refine ⟨2, "B".toList, ?_⟩
    have hc : collectRefs [cycA, cycB] =
        .ok [("A".toList, [(1, 4)]), ("B".toList, [(1, 4)])] := rfl
    rw [resolveLoop, hc]
    have hsub : substPhase emptyEnv [("A".toList, [(1, 4)]), ("B".toList, [(1, 4)])]
        ["B".toList, "A".toList] [cycA, cycB] =
        .ok [{ cycA with Value := "\x7b B \x7d".toList },
             { cycB with Value := "\x7b B \x7d".toList }] := rfl
    simp only [List.isEmpty_cons, Bool.false_eq_true, if_false, hsub]
    exact resolveLoop_collect_error
      [{ cycA with Value := "\x7b B \x7d".toList }, { cycB with Value := "\x7b B \x7d".toList }]
      (.recursiveKey 2 "B".toList) rfl emptyEnv rest

/-- Witness for C2 at one concrete order. -/
theorem c2_mutual_cycle_terminates_witness :
    ∃ l k, resolveLoop emptyEnv [["A".toList, "B".toList]] [cycA, cycB] =
      some (.error (.braceErr (.recursiveKey l k))) :=
  c2_mutual_cycle_terminates ["A".toList, "B".toList] [] (by decide)

/-- C1: on the file A = foo, B = \x7b A \x7dbar, C = \x7b B \x7dbaz the
resolution loop terminates within two substituting iterations and yields
A = foo, B = foobar, C = foobarbaz, whatever order the temporary storage
is walked in within each iteration. -/
theorem c1_chain_interpolation :
    parseLines chainLines = .ok chainStart ∧
    ∀ (o1 o2 : KeyOrder) (rest : List KeyOrder),
      validOrders emptyEnv (o1 :: o2 :: rest) chainStart = true →
      resolveLoop emptyEnv (o1 :: o2 :: rest) chainStart = some (.ok chainFinal) := by
  refine ⟨rfl, ?_⟩
  intro o1 o2 rest h
  have hBC : ("B".toList : Chars) ≠ "C".toList := by decide
  have hc : collectRefs chainStart =
      .ok [("B".toList, [(1, 4)]), ("C".toList, [(1, 4)])] := rfl
  rw [validOrders, hc] at h
  simp only [List.isEmpty_cons, Bool.false_eq_true, if_false, List.map_cons, List.map_nil,
    Bool.and_eq_true, decide_eq_true_eq] at h
  obtain ⟨hperm, h⟩ := h
  rcases perm_pair_cases hBC hperm with rfl | rfl
  · have hsub : substPhase emptyEnv [("B".toList, [(1, 4)]), ("C".toList, [(1, 4)])]
        ["B".toList, "C".toList] chainStart = .ok chainFinal := rfl
    rw [resolveLoop, hc]
    simp only [List.isEmpty_cons, Bool.false_eq_true, if_false, hsub]
    exact resolveLoop_collect_empty chainFinal rfl emptyEnv (o2 :: rest)
  · have hsub : substPhase emptyEnv [("B".toList, [(1, 4)]), ("C".toList, [(1, 4)])]
        ["C".toList, "B".toList] chainStart = .ok chainMid := rfl
    rw [hsub] at h
    simp only [] at h
    have hc2 : collectRefs chainMid = .ok [("C".toList, [(1, 4)])] := rfl
    rw [validOrders, hc2] at h
    simp only [List.isEmpty_cons, Bool.false_eq_true, if_false, List.map_cons, List.map_nil,
      Bool.and_eq_true, decide_eq_true_eq] at h
    obtain ⟨hperm2, _⟩ := h
    have ho2 : o2 = ["C".toList] := List.perm_singleton.mp hperm2
    subst ho2
    have hsub2 : substPhase emptyEnv [("C".toList, [(1, 4)])] ["C".toList] chainMid =
        .ok chainFinal := rfl
    rw [resolveLoop, hc]
    simp only [List.isEmpty_cons, Bool.false_eq_true, if_false, hsub]
    rw [resolveLoop, hc2]
    simp only [List.isEmpty_cons, Bool.false_eq_true, if_false, hsub2]
    exact resolveLoop_collect_empty chainFinal rfl emptyEnv rest

/-- Witness for C1 at the order that processes C before B, needing the
second iteration. -/
theorem c1_chain_interpolation_witness :
    resolveLoop emptyEnv [["C".toList, "B".toList], ["C".toList]] chainStart =
      some (.ok chainFinal) :=
  c1_chain_interpolation.2 ["C".toList, "B".toList] ["C".toList] [] (by decide)

/-- A part scan that returns positions must have gone through the
recursive branch: the scan of the remaining parts also succeeds. -/
theorem scanPartsGo_ok_tail (key value : Chars) (line total : Nat) (part : Chars)
    (rest : List Chars) (offset i : Nat) (ps : List (Nat × Nat))
    (h : scanPartsGo key value line total offset i (part :: rest) = .ok ps) :
    ∃ ps', scanPartsGo key value line total (offset + part.length) (i + 1) rest = .ok ps' := by
  rw [scanPartsGo] at h
  split at h
  · split at h
    · split at h
      · exact absurd h (by simp)
      · exact absurd h (by simp)
    · split at h
      · exact absurd h (by simp)
      · exact ⟨ps, h⟩
  · split at h
    · split at h
      · exact absurd h (by simp)
      · split at h
        · split at h
          · exact absurd h (by simp)
          · exact absurd h (by simp)
        · exact ⟨ps, h⟩
    · split at h
      · split at h
        · exact absurd h (by simp)
        · split at h
          · exact absurd h (by simp)
          · split at h
            · exact absurd h (by simp)
            · rename_i tail heq
              exact ⟨tail, heq⟩
      · exact ⟨ps, h⟩

/-- A parts list containing a well-formed reference part whose name is the
key cannot scan cleanly: some brace error is reported at or before it. -/
theorem scanPartsGo_err_of_selfRef (key value : Chars) (line total : Nat) :
    ∀ (parts : List Chars) (offset i : Nat),
      (∃ op ∈ withOffsets offset parts,
        op.2.count '\x7b' % 2 = 1 ∧ op.2.count '\x7d' % 2 = 1 ∧ refName value op.1 op.2 = key) →
      ∃ e, scanPartsGo key value line total offset i parts = .error e := by
  intro parts
  induction parts with
  | nil =>
    intro offset i h
    rcases h with ⟨op, hop, _⟩
    simp [withOffsets] at hop
  | cons part rest ih =>
    intro offset i h
    rcases h with ⟨op, hop, h1, h2, h3⟩
    rw [withOffsets] at hop
    rcases List.mem_cons.mp hop with rfl | hop2
    · have hO : (part.count '\x7b' % 2 == 0) = false := by simp [h1]
      have hC : (part.count '\x7d' % 2 == 0) = false := by simp [h2]
      rw [scanPartsGo]
      simp only [hO, hC, Bool.not_false, Bool.true_and, Bool.false_and, Bool.and_false,
        Bool.and_true, Bool.false_eq_true, if_false, if_true]
      by_cases hv : goTrim (slice (offset + part.count '\x7b')
          (offset + (part.length - part.count '\x7d')) value) = []
      · rw [if_pos hv]
        exact ⟨.emptyVarName line, rfl⟩
      · rw [if_neg hv]
        rw [refName] at h3
        rw [if_pos h3]
        exact ⟨.recursiveKey line key, rfl⟩
    · cases hscan : scanPartsGo key value line total offset i (part :: rest) with
      | error e => exact ⟨e, rfl⟩
      | ok ps =>
        obtain ⟨ps', hps'⟩ := scanPartsGo_ok_tail key value line total part rest offset i ps hscan
        obtain ⟨e, he⟩ := ih (offset + part.length) (i + 1) ⟨op, hop2, h1, h2, h3⟩
        rw [he] at hps'
        exact absurd hps' (by simp)

/-- The payload whose value holds a well-formed self-reference cannot scan
cleanly. -/
theorem scanValue_err_of_selfRef (p : Payload) (h : hasSelfRef p) :
    ∃ e, scanValue p.Key p.Value p.Line = .error e :=
  scanPartsGo_err_of_selfRef p.Key p.Value p.Line (partsOf p.Value).length
    (partsOf p.Value) 0 0 h

/-- The collection pass fails whenever some payload of the set fails to
scan, whatever error comes first. -/
theorem collectGo_err_of_scan_err :
    ∀ (payloads : List Payload) (temp : Temp),
      (∃ p ∈ payloads, ∃ e, scanValue p.Key p.Value p.Line = .error e) →
      ∃ e, collectGo temp payloads = .error e := by
  intro payloads
  induction payloads with
  | nil =>
    intro temp h
    rcases h with ⟨p, hp, _⟩
    simp at hp
  | cons q rest ih =>
    intro temp h
    rcases h with ⟨p, hp, e, he⟩
    rw [collectGo]
    cases hq : scanValue q.Key q.Value q.Line with
    | error e1 => exact ⟨e1, rfl⟩
    | ok ps =>
      simp only []
      rcases List.mem_cons.mp hp with rfl | hp2
      · rw [hq] at he
        exact absurd he (by simp)
      · exact ih _ ⟨p, hp2, e, he⟩

/-- The collection pass reports exactly the error of the first payload
that fails to scan, when every payload before it scans cleanly or fails
with that same error. -/
theorem collectGo_err_at :
    ∀ (l1 : List Payload) (p : Payload) (l2 : List Payload) (temp : Temp) (err : BraceErr),
      (∀ q ∈ l1, (∃ ps, scanValue q.Key q.Value q.Line = .ok ps) ∨
        scanValue q.Key q.Value q.Line = .error err) →
      scanValue p.Key p.Value p.Line = .error err →
      collectGo temp (l1 ++ p :: l2) = .error err := by
  intro l1
  induction l1 with
  | nil =>
    intro p l2 temp err _ hp
    rw [List.nil_append, collectGo, hp]
  | cons q rest ih =>
    intro p l2 temp err hall hp
    rw [List.cons_append, collectGo]
    rcases hall q (by simp) with ⟨ps, hq⟩ | hq
    · rw [hq]
      exact ih p l2 _ err (fun x hx => hall x (by simp [hx])) hp
    · rw [hq]

/-- C5: an entry whose value holds a well-formed reference to its own key
makes the resolution loop fail with a brace error and never resolve, for
every environment, order supply and surrounding entry set; and when that
entry scans to the recursive-use error and every other entry scans
cleanly, the reported error is exactly the recursive-use one with the
entry's own line and key. -/
theorem c5_self_reference_fails (env : Env) (orders : List KeyOrder)
    (payloads : List Payload) (p : Payload) (hmem : p ∈ payloads) :
    (hasSelfRef p → ∃ e, resolveLoop env orders payloads = some (.error (.braceErr e))) ∧
    (scanValue p.Key p.Value p.Line = .error (.recursiveKey p.Line p.Key) →
     (∀ q ∈ payloads, q ≠ p → ∃ ps, scanValue q.Key q.Value q.Line = .ok ps) →
     resolveLoop env orders payloads =
       some (.error (.braceErr (.recursiveKey p.Line p.Key)))) := by
  constructor
  · intro hself
    obtain ⟨e0, he0⟩ := scanValue_err_of_selfRef p hself
    obtain ⟨e, he⟩ := collectGo_err_of_scan_err payloads [] ⟨p, hmem, e0, he0⟩
    exact ⟨e, resolveLoop_collect_error payloads e he env orders⟩
  · intro hscan hall
    obtain ⟨l1, l2, rfl⟩ := List.append_of_mem hmem
    have hcol : collectRefs (l1 ++ p :: l2) = .error (.recursiveKey p.Line p.Key) := by
      apply collectGo_err_at l1 p l2 [] _ _ hscan
      intro q hq
      by_cases hqp : q = p
      · subst hqp
        exact Or.inr hscan
      · exact Or.inl (hall q (by simp [hq]) hqp)
    exact resolveLoop_collect_error _ _ hcol env orders

/-- Witness for C5 at a single self-referencing entry. -/
theorem c5_self_reference_fails_witness :
    resolveLoop emptyEnv [] [selfRefEntry] =
      some (.error (.braceErr (.recursiveKey 2 "E".toList))) :=
  (c5_self_reference_fails emptyEnv [] [selfRefEntry] selfRefEntry (by simp)).2 rfl
    (by intro q hq hne; simp at hq; exact absurd hq hne)

/-- The counts of two distinct characters never exceed the length. -/
theorem count_two_le_length {a b : Char} (hab : a ≠ b) :
    ∀ (l : List Char), l.count a + l.count b ≤ l.length := by
  intro l
  induction l with
  | nil => simp
  | cons c t ih =>
    rw [List.count_cons, List.count_cons, List.length_cons]
    by_cases hca : c = a
    · rw [if_pos (beq_iff_eq.mpr hca)]
      have hcb : ¬((c == b) = true) := by
        simp only [beq_iff_eq]
        intro hcb
        exact hab (hca.symm.trans hcb)
      rw [if_neg hcb]
      omega
    · rw [if_neg (by simp only [beq_iff_eq]; exact hca)]
      by_cases hcb : c = b
      · rw [if_pos (beq_iff_eq.mpr hcb)]
        omega
      · rw [if_neg (by simp only [beq_iff_eq]; exact hcb)]
        omega

/-- Separation is monotone in the lower bound. -/
theorem SepB_weaken (hi : Nat) : ∀ (ps : List (Nat × Nat)) (lo1 lo2 : Nat),
    lo2 ≤ lo1 → SepB hi lo1 ps → SepB hi lo2 ps := by
  intro ps
  cases ps with
  | nil => intro lo1 lo2 _ _; trivial
  | cons q r =>
    obtain ⟨s, e⟩ := q
    intro lo1 lo2 hle h
    rw [SepB] at h ⊢
    exact ⟨le_trans hle h.1, h.2⟩

/-- Every member of a separated list starts at or after the lower bound
and its span lies within the value. -/
theorem SepB_mem_bounds (hi : Nat) : ∀ (ps : List (Nat × Nat)) (lo : Nat),
    SepB hi lo ps → ∀ x ∈ ps, lo ≤ x.1 ∧ x.1 ≤ x.2 ∧ x.2 < hi := by
  intro ps
  induction ps with
  | nil => intro lo _ x hx; simp at hx
  | cons q r ih =>
    obtain ⟨s, e⟩ := q
    intro lo h x hx
    rw [SepB] at h
    obtain ⟨h1, h2, h3, h4⟩ := h
    rcases List.mem_cons.mp hx with rfl | hx2
    · exact ⟨h1, h2, h3⟩
    · have hb := ih (e + 2) h4 x hx2
      exact ⟨by omega, hb.2⟩

/-- A separated list gives, around any chosen member, the bound of its own
span and that every later position starts after its span plus the brace. -/
theorem SepB_split (hi : Nat) : ∀ (l : List (Nat × Nat)) (lo : Nat) (q : Nat × Nat)
    (r : List (Nat × Nat)), SepB hi lo (l ++ q :: r) →
    q.1 ≤ q.2 ∧ q.2 < hi ∧ ∀ x ∈ r, q.2 + 2 ≤ x.1 := by
  intro l
  induction l with
  | nil =>
    intro lo q r h
    obtain ⟨s, e⟩ := q
    rw [List.nil_append, SepB] at h
    obtain ⟨h1, h2, h3, h4⟩ := h
    exact ⟨h2, h3, fun x hx => (SepB_mem_bounds hi r (e + 2) h4 x hx).1⟩
  | cons p0 l' ih =>
    obtain ⟨s0, e0⟩ := p0
    intro lo q r h
    rw [List.cons_append, SepB] at h
    exact ih (e0 + 2) q r h.2.2.2

/-- The parts of the tokenizer walk carry exactly the characters of the
pending buffer plus the remaining input. -/
theorem partsGo_length_sum : ∀ (l : List Char) (prev : Char) (chars : List Char),
    ((partsGo prev chars l).map List.length).sum = chars.length + l.length := by
  intro l
  induction l with
  | nil =>
    intro prev chars
    rw [partsGo]
    cases chars with
    | nil => simp
    | cons x t => simp
  | cons c rest ih =>
    intro prev chars
    rw [partsGo]
    split
    · simp only [List.map_cons, List.sum_cons, ih]
      simp
      omega
    · split
      · simp only [List.map_cons, List.sum_cons, ih]
        simp
        omega
      · rw [ih]
        simp
        omega

/-- The positions a clean scan returns are separated: ascending, spans
inside the value, and a gap of at least two characters between a span end
and the next span start. -/
theorem scanPartsGo_sep (key value : Chars) (line total : Nat) :
    ∀ (parts : List Chars) (offset i : Nat) (ps : List (Nat × Nat)),
      scanPartsGo key value line total offset i parts = .ok ps →
      ∀ hi, offset + (parts.map List.length).sum ≤ hi → SepB hi (offset + 1) ps := by
  intro parts
  induction parts with
  | nil =>
    intro offset i ps h hi hb
    rw [scanPartsGo] at h
    injection h with h1
    subst h1
    trivial
  | cons part rest ih =>
    intro offset i ps h hi hb
    have hb' : offset + part.length + (rest.map List.length).sum ≤ hi := by
      rw [List.map_cons, List.sum_cons] at hb
      omega
    rw [scanPartsGo] at h
    split at h
    · split at h
      · split at h
        · exact absurd h (by simp)
        · exact absurd h (by simp)
      · split at h
        · exact absurd h (by simp)
        · exact SepB_weaken hi ps _ _ (by omega)
            (ih (offset + part.length) (i + 1) ps h hi hb')
    · split at h
      · split at h
        · exact absurd h (by simp)
        · split at h
          · split at h
            · exact absurd h (by simp)
            · exact absurd h (by simp)
          · exact SepB_weaken hi ps _ _ (by omega)
              (ih (offset + part.length) (i + 1) ps h hi hb')
      · split at h
        · rename_i hc3
          simp only [Bool.and_eq_true, Bool.not_eq_true', beq_eq_false_iff_ne, ne_eq] at hc3
          split at h
          · exact absurd h (by simp)
          · split at h
            · exact absurd h (by simp)
            · split at h
              · exact absurd h (by simp)
              · rename_i tail heq
                injection h with h1
                subst h1
                rw [SepB]
                have hcl : part.count '\x7d' ≤ part.length := List.count_le_length _ _
                have h2c : part.count '\x7b' + part.count '\x7d' ≤ part.length :=
                  count_two_le_length (by decide) part
                have htail := ih (offset + part.length) (i + 1) tail heq hi hb'
                refine ⟨by omega, by omega, by omega, ?_⟩
                exact SepB_weaken hi tail _ _ (by omega) htail
        · exact SepB_weaken hi ps _ _ (by omega)
            (ih (offset + part.length) (i + 1) ps h hi hb')

/-- Separation of the positions of a clean whole-value scan. -/
theorem scanValue_sep (key value : Chars) (line : Nat) (ps : List (Nat × Nat))
    (h : scanValue key value line = .ok ps) : SepB value.length 1 ps := by
  have hs := scanPartsGo_sep key value line (partsOf value).length (partsOf value) 0 0 ps h
    value.length (by rw [partsOf, partsGo_length_sum]; simp)
  simpa using hs

/-- Agreement on a longer front extends to any shorter front. -/
theorem take_agree_mono {u v : Chars} {n m : Nat} (h : u.take n = v.take n) (hm : m ≤ n) :
    u.take m = v.take m := by
  have hc := congrArg (List.take m) h
  rwa [List.take_take, List.take_take, Nat.min_eq_left hm] at hc

/-- Agreement on a front covering a slice makes the slices agree. -/
theorem take_agree_slice {u v : Chars} {n s e : Nat} (h : u.take n = v.take n) (he : e ≤ n) :
    slice s e u = slice s e v := by
  rw [slice, slice, ← List.drop_take, ← List.drop_take]
  rw [take_agree_mono h he]

/-- Agreement on a front bounds the length from below. -/
theorem length_le_of_take_agree {u v : Chars} {n : Nat} (h : u.take n = v.take n)
    (hv : n ≤ v.length) : n ≤ u.length := by
  have hc := congrArg List.length h
  rw [List.length_take, List.length_take] at hc
  omega

/-- Splicing at a position strictly to the right leaves the front of the
value untouched. -/
theorem splice_take_agree (u mid : Chars) (s e n : Nat) (hn : n ≤ s - 1) (hu : n ≤ u.length) :
    (u.take (s - 1) ++ mid ++ u.drop (e + 1)).take n = u.take n := by
  rw [List.append_assoc]
  rw [List.take_append_of_le_length (by rw [List.length_take]; omega)]
  rw [List.take_take, Nat.min_eq_left hn]

/-- Processing the references of one payload right to left must fail with
a variable-does-not-exist error when one of the separated positions names
a variable absent from both the payload array and the environment: the
splices to its right never touch the front of the value holding it. -/
theorem spliceAll_err (env : Env) (arr : List Payload) (line : Nat) (orig : Chars)
    (s0 e0 : Nat) (name : Chars)
    (hlook : lookupValue arr name = none) (henv : env name = none)
    (hname : goTrim (slice s0 e0 orig) = name)
    (hbound : e0 < orig.length) :
    ∀ (todoR : List (Nat × Nat)) (tailL : List (Nat × Nat)) (v : Chars),
      (∀ x ∈ todoR, e0 + 2 ≤ x.1) →
      v.take (e0 + 1) = orig.take (e0 + 1) →
      ∃ w, spliceAll env arr line v (todoR ++ (s0, e0) :: tailL) = .error (.missingVar line w) ∧
        lookupValue arr w = none ∧ env w = none := by
  intro todoR
  induction todoR with
  | nil =>
    intro tailL v _ hagree
    rw [List.nil_append, spliceAll]
    have hvar : goTrim (slice s0 e0 v) = name := by
      rw [take_agree_slice hagree (by omega)]
      exact hname
    rw [hvar, hlook, henv]
    exact ⟨name, rfl, hlook, henv⟩
  | cons x todoR' ih =>
    obtain ⟨s, e⟩ := x
    intro tailL v hsep hagree
    have hse : e0 + 2 ≤ s := hsep (s, e) (by simp)
    have hvlen : e0 + 1 ≤ v.length := length_le_of_take_agree hagree (by omega)
    rw [List.cons_append, spliceAll]
    cases hl : lookupValue arr (goTrim (slice s e v)) with
    | some w =>
      exact ih tailL _ (fun y hy => hsep y (by simp [hy]))
        (by rw [splice_take_agree v w s e (e0 + 1) (by omega) hvlen]; exact hagree)
    | none =>
      cases he2 : env (goTrim (slice s e v)) with
      | some w =>
        exact ih tailL _ (fun y hy => hsep y (by simp [hy]))
          (by rw [splice_take_agree v w s e (e0 + 1) (by omega) hvlen]; exact hagree)
      | none =>
        exact ⟨goTrim (slice s e v), rfl, hl, he2⟩

/-- A name carried by no payload finds no value in the array. -/
theorem lookupValue_none_of (arr : List Payload) (name : Chars)
    (h : ∀ q ∈ arr, q.Key ≠ name) : lookupValue arr name = none := by
  have hf : arr.find? (fun q => q.Key == name) = none :=
    List.find?_eq_none.mpr (by intro x hx; simp only [beq_iff_eq]; exact h x hx)
  rw [lookupValue, hf]
  rfl

/-- A failed lookup means no payload carries the name. -/
theorem keys_ne_of_lookupValue_none (arr : List Payload) (name : Chars)
    (h : lookupValue arr name = none) : ∀ q ∈ arr, q.Key ≠ name := by
  rw [lookupValue] at h
  have hf : arr.find? (fun q => q.Key == name) = none := by
    cases hff : arr.find? (fun q => q.Key == name) with
    | none => rfl
    | some q => rw [hff] at h; simp at h
  intro q hq
  have hne := List.find?_eq_none.mp hf q hq
  simpa using hne

/-- Payloads without references contribute nothing to the collection. -/
theorem collectGo_append_skip : ∀ (l l' : List Payload) (temp : Temp),
    (∀ q ∈ l, scanValue q.Key q.Value q.Line = .ok []) →
    collectGo temp (l ++ l') = collectGo temp l' := by
  intro l
  induction l with
  | nil => intro l' temp _; rw [List.nil_append]
  | cons q rest ih =>
    intro l' temp hall
    rw [List.cons_append, collectGo, hall q (by simp)]
    simp only [List.isEmpty_nil, if_true]
    exact ih l' temp (fun x hx => hall x (by simp [hx]))

/-- Lookup in a one-entry temporary storage. -/
theorem tempGet_single (k : Chars) (ps : List (Nat × Nat)) : tempGet [(k, ps)] k = ps := by
  simp [tempGet, List.find?]

/-- Payloads carrying other keys are passed over unchanged by the
processing of one temporary-storage key. -/
theorem substKeyGo_skip (env : Env) (k : Chars) (ps : List (Nat × Nat)) :
    ∀ (l1 : List Payload) (done l' : List Payload),
      (∀ q ∈ l1, q.Key ≠ k) →
      substKeyGo env k ps done (l1 ++ l') = substKeyGo env k ps (done ++ l1) l' := by
  intro l1
  induction l1 with
  | nil => intro done l' _; simp
  | cons q rest ih =>
    intro done l' hall
    rw [List.cons_append, substKeyGo, if_neg (hall q (by simp))]
    rw [ih (done ++ [q]) l' (fun x hx => hall x (by simp [hx]))]
    simp [List.append_assoc]

/-- C6 counterexample: with another entry whose braces are malformed, an
entry referencing a missing name makes Parse fail with a BraceError, not
with a ResolutionError. -/
theorem c6_counterexample :
    resolveLoop emptyEnv [] [braceBroken, missingRefEntry] =
      some (.error (.braceErr (.excessOpeningAtEnd 1))) ∧
    Err.isResolution (.braceErr (.excessOpeningAtEnd 1)) = false :=
  ⟨rfl, rfl⟩

/-- C6 amended: when every entry of the set tokenizes cleanly and exactly
one entry carries references, a reference of that entry to a name that is
neither an entry key nor set in the ambient environment makes the
resolution loop fail, in its first iteration and for every valid
processing order, with the variable-does-not-exist ResolutionError
reporting the referring entry's line; the reported variable is itself
missing from the entry set and from the environment. -/
theorem c6_missing_variable (env : Env) (payloads : List Payload) (p : Payload)
    (ps : List (Nat × Nat)) (s0 e0 : Nat) (name : Chars) (o : KeyOrder)
    (rest : List KeyOrder)
    (hnd : payloads.Nodup)
    (hmem : p ∈ payloads)
    (hscan : scanValue p.Key p.Value p.Line = .ok ps)
    (hothers : ∀ q ∈ payloads, q ≠ p → scanValue q.Key q.Value q.Line = .ok [])
    (hkeydist : ∀ q ∈ payloads, q ≠ p → q.Key ≠ p.Key)
    (hpos : (s0, e0) ∈ ps)
    (hname : goTrim (slice s0 e0 p.Value) = name)
    (hnokey : ∀ q ∈ payloads, q.Key ≠ name)
    (henv : env name = none)
    (horder : o.Perm [p.Key]) :
    ∃ w, resolveLoop env (o :: rest) payloads = some (.error (.missingVar p.Line w)) ∧
      env w = none ∧ ∀ q ∈ payloads, q.Key ≠ w := by
  have ho : o = [p.Key] := List.perm_singleton.mp horder
  subst ho
  obtain ⟨l1, l2, rfl⟩ := List.append_of_mem hmem
  obtain ⟨psa, psb, rfl⟩ := List.append_of_mem hpos
  have hndparts := List.nodup_append.mp hnd
  have hpl1 : p ∉ l1 := fun hx => hndparts.2.2 hx (List.mem_cons_self p l2)
  have hpl2 : p ∉ l2 := by
    have hc := hndparts.2.1
    rw [List.nodup_cons] at hc
    exact hc.1
  have hl1scan : ∀ q ∈ l1, scanValue q.Key q.Value q.Line = .ok [] :=
    fun q hq => hothers q (by simp [hq]) (fun hqp => hpl1 (hqp ▸ hq))
  have hl2scan : ∀ q ∈ l2, scanValue q.Key q.Value q.Line = .ok [] :=
    fun q hq => hothers q (by simp [hq]) (fun hqp => hpl2 (hqp ▸ hq))
  have hl1key : ∀ q ∈ l1, q.Key ≠ p.Key :=
    fun q hq => hkeydist q (by simp [hq]) (fun hqp => hpl1 (hqp ▸ hq))
  have hpsne : (psa ++ (s0, e0) :: psb).isEmpty = false := by
    cases psa with
    | nil => rfl
    | cons a t => rfl
  have hcol : collectRefs (l1 ++ p :: l2) = .ok [(p.Key, psa ++ (s0, e0) :: psb)] := by
    rw [collectRefs, collectGo_append_skip l1 (p :: l2) [] hl1scan, collectGo, hscan]
    simp only [hpsne, Bool.false_eq_true, if_false]
    rw [tempAdd]
    have hskip2 := collectGo_append_skip l2 [] [(p.Key, psa ++ (s0, e0) :: psb)] hl2scan
    rw [List.append_nil] at hskip2
    rw [hskip2]
    rfl
  have hsep := scanValue_sep p.Key p.Value p.Line _ hscan
  obtain ⟨hse, hbound, hright⟩ :=
    SepB_split p.Value.length psa 1 (s0, e0) psb hsep
  have hrev : (psa ++ (s0, e0) :: psb).reverse = psb.reverse ++ (s0, e0) :: psa.reverse := by
    simp
  have hlookname : lookupValue (l1 ++ p :: l2) name = none := lookupValue_none_of _ _ hnokey
  obtain ⟨w, hw, hlw, hew⟩ := spliceAll_err env (l1 ++ p :: l2) p.Line p.Value s0 e0 name
    hlookname henv hname hbound psb.reverse psa.reverse p.Value
    (fun x hx => hright x (List.mem_reverse.mp hx)) rfl
  have hsk : substKeyGo env p.Key (psa ++ (s0, e0) :: psb) [] (l1 ++ p :: l2) =
      .error (.missingVar p.Line w) := by
    rw [substKeyGo_skip env p.Key _ l1 [] (p :: l2) hl1key, List.nil_append, substKeyGo,
      if_pos rfl, hrev, hw]
  have hsp : substPhase env [(p.Key, psa ++ (s0, e0) :: psb)] [p.Key] (l1 ++ p :: l2) =
      .error (.missingVar p.Line w) := by
    rw [substPhase, tempGet_single, hsk]
  have hfinal : resolveLoop env ([p.Key] :: rest) (l1 ++ p :: l2) =
      some (.error (.missingVar p.Line w)) := by
    rw [resolveLoop, hcol]
    simp only [List.isEmpty_cons, Bool.false_eq_true, if_false, hsp]
  exact ⟨w, hfinal, hew, keys_ne_of_lookupValue_none _ _ hlw⟩

/-- Witness for C6 at a single entry referencing the missing name M. -/
theorem c6_missing_variable_witness :
    ∃ w, resolveLoop emptyEnv [["E".toList]] [missingRefEntry] =
      some (.error (.missingVar 2 w)) ∧
      emptyEnv w = none ∧ ∀ q ∈ [missingRefEntry], q.Key ≠ w :=
  c6_missing_variable emptyEnv [missingRefEntry] missingRefEntry [(1, 4)] 1 4 "M".toList
    ["E".toList] [] (by decide) (by simp) rfl
    (by intro q hq hne; simp at hq; exact absurd hq hne)
    (by intro q hq hne; simp at hq; exact absurd hq hne)
    (by simp) rfl (by decide) rfl (by decide)
